import Mathlib

/-!
Verification development for the `guessit` iterative matcher
(`guessit/matcher.py`).  Strings are modelled as lists of characters
(Python iterates and slices strings by character); spans are half-open
`(start, stop)` pairs of naturals; confidences are rationals mirroring the
exact decimal literals of the source.  Fallible Python code (assertions,
out-of-range indexing) is modelled with `Except Unit`.
-/

abbrev Str := List Char

/-- Convert a Lean string literal to the character-list model. -/
def str (s : String) : Str := s.data

/-- `deleted = '_'`: the filler character used to blank matched regions. -/
def deleted : Char := '_'

/-- Python slice `l[a:b]` for naturals `a`, `b` (clamped like Python slices). -/
def pySlice (l : Str) (a b : Nat) : Str := (l.drop a).take (b - a)

/-- `str_replace(string, pos, c)`: `string[:pos] + c + string[pos+1:]`. -/
def str_replace (s : Str) (pos : Nat) (c : Char) : Str :=
  s.take pos ++ [c] ++ s.drop (pos + 1)

/-- `blank_region(string, region)`:
`string[:region[0]] + deleted * (region[1]-region[0]) + string[region[1]:]`. -/
def blank_region (s : Str) (r : Nat × Nat) : Str :=
  s.take r.1 ++ List.replicate (r.2 - r.1) deleted ++ s.drop r.2

/-!  ## Bracket tokenizer (`find_first_level_groups_span`)

The scan keeps the stack of opening positions (`depth`, head = top of the
Python list) and the list of emitted spans (`acc`, appended in emission
order).  `scanGroups` returns the final `(depth, acc)` state so that facts
about prefixes of the input can be stated.  -/

def scanGroups (opening closing : Char) :
    Str → Nat → List Nat → List (Nat × Nat) → List Nat × List (Nat × Nat)
  | [], _, depth, acc => (depth, acc)
  | ch :: rest, i, depth, acc =>
    if ch = opening then
      scanGroups opening closing rest (i + 1) (i :: depth) acc
    else if ch = closing then
      match depth with
      | [] =>
        -- `depth.pop()` raised `IndexError`; the handler swallows it
        scanGroups opening closing rest (i + 1) [] acc
      | start :: ds =>
        if ds = [] then
          scanGroups opening closing rest (i + 1) ds (acc ++ [(start, i + 1)])
        else
          scanGroups opening closing rest (i + 1) ds acc
    else
      scanGroups opening closing rest (i + 1) depth acc

/-- `find_first_level_groups_span(string, enclosing)` with `enclosing`
unpacked into its two characters. -/
def find_first_level_groups_span (s : Str) (opening closing : Char) :
    List (Nat × Nat) :=
  (scanGroups opening closing s 0 [] []).2

/-!  ## `split_on_groups` -/

/-- The distinct boundary values in ascending order: Python's
`sorted(set(reduce(lambda l, x: l + list(x), groups, [])))`. -/
def pyBoundaries (groups : List (Nat × Nat)) : List Nat :=
  List.insertionSort (· ≤ ·) (groups.foldl (fun acc p => acc ++ [p.1, p.2]) []).dedup

/-- `split_on_groups(string, groups)`. -/
def split_on_groups (s : Str) (groups : List (Nat × Nat)) : List Str :=
  if groups = [] then [s]
  else
    let bs := pyBoundaries groups
    let bs := if bs.head? ≠ some 0 then 0 :: bs else bs
    let bs := if bs.getLast? ≠ some s.length then bs ++ [s.length] else bs
    ((bs.zip bs.tail).map (fun p => pySlice s p.1 p.2)).filter (fun g => !g.isEmpty)

/-- `find_first_level_groups(string, enclosing)` with the default
`blank_sep = True`: the two delimiter characters of every span are
replaced by `deleted` before splitting. -/
def find_first_level_groups (s : Str) (opening closing : Char) : List Str :=
  let groups := find_first_level_groups_span s opening closing
  let s' := groups.foldl
    (fun cur (p : Nat × Nat) => str_replace (str_replace cur p.1 deleted) (p.2 - 1) deleted) s
  split_on_groups s' groups

/-- `split_explicit_groups(string)`: split on `()`, then `[]`, then `{}`. -/
def split_explicit_groups (s : Str) : List Str :=
  let r := find_first_level_groups s '(' ')'
  let r := r.foldl (fun acc x => acc ++ find_first_level_groups x '[' ']') []
  r.foldl (fun acc x => acc ++ find_first_level_groups x '{' '}') []

/-!  ## Evidence values and guesses -/

inductive GVal where
  | vstr : Str → GVal
  | vnat : Nat → GVal
deriving DecidableEq, Repr

/-- One evidence item: the dict passed to `guessed` plus its confidence.
Pairs are kept in insertion order; keys are distinct by construction. -/
structure Guess where
  pairs : List (Str × GVal)
  conf : ℚ
deriving DecidableEq, Repr

def seasonKey : Str := str "season"
def episodeNumberKey : Str := str "episodeNumber"
def yearKey : Str := str "year"
def extensionKey : Str := str "extension"
def dateKey : Str := str "date"
def languageKey : Str := str "language"
def subtitleLanguageKey : Str := str "subtitleLanguage"
def releaseGroupKey : Str := str "releaseGroup"
def videoCodecKey : Str := str "videoCodec"

/-- Python `int()` on the digit strings produced by the number-capturing
groups (those groups only ever capture `[0-9]+` text). -/
def pyIntDigits (l : Str) : Nat :=
  l.foldl (fun n c => n * 10 + (c.toNat - '0'.toNat)) 0

/-- `format_episode_guess`: values of `season`, `episodeNumber` and `year`
are converted to integers. -/
def format_episode_guess (g : Guess) : Guess :=
  { g with pairs := g.pairs.map (fun p =>
      if p.1 = seasonKey ∨ p.1 = episodeNumberKey ∨ p.1 = yearKey then
        (p.1, match p.2 with
              | GVal.vstr s => GVal.vnat (pyIntDigits s)
              | v => v)
      else p) }

/-- Does any accumulated guess contain the key `episodeNumber`
(`any('episodeNumber' in match for match in result)`)? -/
def hasEpisodeNumber (result : List Guess) : Bool :=
  result.any (fun g => g.pairs.any (fun p => p.1 = episodeNumberKey))

/-!  ## Separators and canonicalization -/

/-- The raw pattern string `sep = r'[][)(}{ \._-]'` (used both as a regexp
and, in the property scan, as a plain character sequence). -/
def sep : Str := str "[][)(\x7d\x7b \\._-]"

/-- The characters matched by the regexp character class `[][)(}{ \._-]`
(the backslash escapes the dot, so it is not itself in the class). -/
def isSepClassChar (c : Char) : Bool :=
  c = ']' ∨ c = '[' ∨ c = ')' ∨ c = '(' ∨ c = '}' ∨ c = '{' ∨
  c = ' ' ∨ c = '.' ∨ c = '_' ∨ c = '-'

/-- Python `c in sep` (membership in the raw pattern STRING, which also
contains the backslash character). -/
def isSepStrChar (c : Char) : Bool := sep.contains c

def lowerStr (l : Str) : Str := l.map Char.toLower

/-- `reverse_synonyms`, as built once from `property_synonyms`. -/
def reverse_synonyms : List (Str × Str) :=
  [ (str "dvdrip", str "DVD"),
    (str "hddvd", str "HD-DVD"),
    (str "hddvdrip", str "HD-DVD"),
    (str "bdrip", str "BluRay"),
    (str "dvdivx", str "DivX") ]

/-- `canonical_form(string)`. -/
def canonical_form (s : Str) : Str :=
  match reverse_synonyms.lookup (lowerStr s) with
  | some c => c
  | none => s

/-!  ## Hand-compiled matchers for the concrete regular expressions

Each pattern of the source's rule tables is compiled by hand into a
matcher `Str → Nat → Option (Nat × List Str)` giving, for a match starting
at the given position, the end position and the captured groups (in the
order of the pattern's named groups).  `reSearch` then mirrors
`re.search`: leftmost starting position wins, and at a given position the
candidate lengths are tried in the backtracking order of the Python regexp
engine (greedy quantifiers longest-first, lazy ones shortest-first). -/

def charAt (l : Str) (i : Nat) : Option Char := (l.drop i).head?

/-- Exactly `n` decimal digits at position `i`: the captured text. -/
def digitsAt (l : Str) (i n : Nat) : Option Str :=
  let d := pySlice l i (i + n)
  if d.length = n ∧ d.all Char.isDigit then some d else none

/-- Length of the maximal digit run starting at `i` (for `[0-9]+`). -/
def digitRunFrom (l : Str) (i : Nat) : Nat :=
  ((l.drop i).takeWhile Char.isDigit).length

/-- `n` arbitrary characters (regexp `.`, which excludes newlines) at `i`. -/
def anyAt (l : Str) (i n : Nat) : Bool :=
  let d := pySlice l i (i + n)
  d.length = n && d.all (fun c => c ≠ '\n')

/-- Case-insensitive literal at position `i`. -/
def ciAt (l : Str) (i : Nat) (kw : Str) : Bool :=
  lowerStr (pySlice l i (i + kw.length)) = lowerStr kw

def tryLens (cands : List Nat) (f : Nat → Option α) : Option α :=
  cands.findSome? f

/-- `re.search` driver: leftmost match of the position matcher. -/
def reSearch (m : Str → Nat → Option (Nat × List Str)) (l : Str) :
    Option (Nat × Nat × List Str) :=
  (List.range (l.length + 1)).findSome? fun i =>
    (m l i).map fun r => (i, r.1, r.2)

/-- `season (?P<season>[0-9]+)` and `saison (?P<season>[0-9]+)`
(IGNORECASE): keyword, a space, then a maximal digit run. -/
def matchKwNum (kw : Str) (l : Str) (i : Nat) : Option (Nat × List Str) :=
  if ciAt l i kw then
    let j := i + kw.length
    let n := digitRunFrom l j
    if n = 0 then none else some (j + n, [pySlice l j (j + n)])
  else none

/-- `[Ss](?P<season>[0-9]{1,2}).{,3}[EeXx](?P<episodeNumber>[0-9]{1,2})[^0-9]`. -/
def matchSxxEyy (l : Str) (i : Nat) : Option (Nat × List Str) :=
  match charAt l i with
  | none => none
  | some c0 =>
    if c0 = 's' ∨ c0 = 'S' then
      tryLens [2, 1] fun d1 =>
        match digitsAt l (i + 1) d1 with
        | none => none
        | some ds1 =>
          tryLens [3, 2, 1, 0] fun gap =>
            if anyAt l (i + 1 + d1) gap then
              match charAt l (i + 1 + d1 + gap) with
              | some ce =>
                if ce = 'E' ∨ ce = 'e' ∨ ce = 'X' ∨ ce = 'x' then
                  tryLens [2, 1] fun d2 =>
                    match digitsAt l (i + 1 + d1 + gap + 1) d2 with
                    | none => none
                    | some ds2 =>
                      match charAt l (i + 1 + d1 + gap + 1 + d2) with
                      | some cz =>
                        if cz.isDigit then none
                        else some (i + 1 + d1 + gap + 1 + d2 + 1, [ds1, ds2])
                      | none => none
                else none
              | none => none
            else none
    else none

/-- `[^0-9](?P<season>[0-9]{1,2})[x\.](?P<episodeNumber>[0-9]{2})[^0-9]`
(IGNORECASE makes `[x\.]` accept `x`, `X` and `.`). -/
def matchNxNN (l : Str) (i : Nat) : Option (Nat × List Str) :=
  match charAt l i with
  | none => none
  | some c0 =>
    if c0.isDigit then none
    else
      tryLens [2, 1] fun d1 =>
        match digitsAt l (i + 1) d1 with
        | none => none
        | some ds1 =>
          match charAt l (i + 1 + d1) with
          | some cx =>
            if cx = 'x' ∨ cx = 'X' ∨ cx = '.' then
              match digitsAt l (i + 1 + d1 + 1) 2 with
              | none => none
              | some ds2 =>
                match charAt l (i + 1 + d1 + 1 + 2) with
                | some cz =>
                  if cz.isDigit then none
                  else some (i + 1 + d1 + 1 + 2 + 1, [ds1, ds2])
                | none => none
            else none
          | none => none

/-- `sep s(?P<season>[0-9]{1,2}) sep` (IGNORECASE: `s` or `S`). -/
def matchLoneS (l : Str) (i : Nat) : Option (Nat × List Str) :=
  match charAt l i, charAt l (i + 1) with
  | some c0, some c1 =>
    if isSepClassChar c0 ∧ (c1 = 's' ∨ c1 = 'S') then
      tryLens [2, 1] fun d =>
        match digitsAt l (i + 2) d with
        | none => none
        | some ds =>
          match charAt l (i + 2 + d) with
          | some cz => if isSepClassChar cz then some (i + 2 + d + 1, [ds]) else none
          | none => none
    else none
  | _, _ => none

/-- `sep (?P<episodeNumber>[0-9]{1,3})v[23] sep` (IGNORECASE: `v` or `V`). -/
def matchVersioned (l : Str) (i : Nat) : Option (Nat × List Str) :=
  match charAt l i with
  | none => none
  | some c0 =>
    if isSepClassChar c0 then
      tryLens [3, 2, 1] fun d =>
        match digitsAt l (i + 1) d with
        | none => none
        | some ds =>
          match charAt l (i + 1 + d), charAt l (i + 1 + d + 1),
                charAt l (i + 1 + d + 2) with
          | some cv, some cn, some cz =>
            if (cv = 'v' ∨ cv = 'V') ∧ (cn = '2' ∨ cn = '3') ∧ isSepClassChar cz then
              some (i + 1 + d + 3, [ds])
            else none
          | _, _, _ => none
    else none

/-- `sep (?P<episodeNumber>[0-9]{1,3}) sep` (the weak episode rule). -/
def matchWeakNumber (l : Str) (i : Nat) : Option (Nat × List Str) :=
  match charAt l i with
  | none => none
  | some c0 =>
    if isSepClassChar c0 then
      tryLens [3, 2, 1] fun d =>
        match digitsAt l (i + 1) d with
        | none => none
        | some ds =>
          match charAt l (i + 1 + d) with
          | some cz => if isSepClassChar cz then some (i + 1 + d + 1, [ds]) else none
          | none => none
    else none

/-- `sep (<codec>)-(?P<releaseGroup>.*?)[ \.]` (IGNORECASE).  The first
group captures the codec text as written; `.*?` is lazy, so the shortest
release-group text up to a space or dot wins. -/
def matchCodecGroup (codec : Str) (l : Str) (i : Nat) : Option (Nat × List Str) :=
  match charAt l i with
  | none => none
  | some c0 =>
    if isSepClassChar c0 ∧ ciAt l (i + 1) codec ∧
        charAt l (i + 1 + codec.length) = some '-' then
      let base := i + 1 + codec.length + 1
      tryLens (List.range (l.length + 1 - base)) fun k =>
        if anyAt l base k then
          match charAt l (base + k) with
          | some cz =>
            if cz = ' ' ∨ cz = '.' then
              some (base + k + 1, [pySlice l (i + 1) (i + 1 + codec.length),
                                   pySlice l base (base + k)])
            else none
          | none => none
        else none
    else none

/-!  ## Rule tables -/

structure Rexp where
  keys : List Str
  find : Str → Nat → Option (Nat × List Str)

/-- `episodes_rexps`: `(pattern, confidence, span_adjust)` in source order. -/
def episodes_rexps : List (Rexp × ℚ × Int × Int) :=
  [ (⟨[seasonKey], matchKwNum (str "season ")⟩, 1, 0, 0),
    (⟨[seasonKey], matchKwNum (str "saison ")⟩, 1, 0, 0),
    (⟨[seasonKey, episodeNumberKey], matchSxxEyy⟩, 1, 0, -1),
    (⟨[seasonKey, episodeNumberKey], matchNxNN⟩, 4/5, 1, -1),
    (⟨[seasonKey], matchLoneS⟩, 3/5, 0, 0),
    (⟨[episodeNumberKey], matchVersioned⟩, 3/5, 0, 0) ]

/-- `weak_episodes_rexps`. -/
def weak_episodes_rexps : List (Rexp × ℚ × Int × Int) :=
  [ (⟨[episodeNumberKey], matchWeakNumber⟩, 3/10, 1, -1) ]

/-- The static property table, in source listing order (a Python dict is
iterated in an implementation-defined but fixed order; the source listing
order is used here). -/
def properties : List (Str × List Str) :=
  [ (str "format", [str "DVDRip", str "HD-DVD", str "HDDVD", str "HDDVDRip",
      str "BluRay", str "BDRip", str "R5", str "HDRip", str "DVD", str "Rip",
      str "HDTV", str "DVB"]),
    (str "container", [str "avi", str "mkv", str "ogv", str "wmv", str "mp4",
      str "mov"]),
    (str "screenSize", [str "720p"]),
    (str "videoCodec", [str "XviD", str "DivX", str "x264", str "Rv10"]),
    (str "audioCodec", [str "AC3", str "DTS", str "He-AAC", str "AAC-He",
      str "AAC"]),
    (str "releaseGroup", [str "ESiR", str "WAF", str "SEPTiC", str "[XCT]",
      str "iNT", str "PUKKA", str "CHD", str "ViTE", str "DiAMOND", str "TLF",
      str "DEiTY", str "FLAiTE", str "MDX", str "GM4F", str "DVL", str "SVD",
      str "iLUMiNADOS", str " FiNaLe", str "UnSeeN", str "aXXo",
      str "KLAXXON", str "NoTV"]),
    (str "website", [str "tvu.org.ru", str "emule-island.com"]),
    (str "other", [str "5ch", str "PROPER", str "REPACK", str "LIMITED",
      str "DualAudio", str "iNTERNAL", str "Audiofixed", str "complete",
      str "classic", str "ws", str "SE"]) ]

/-!  ## The per-group matching pass -/

/-- The two pluggable detectors (date and language recognition are
external collaborators; §6 of the spec). `searchDate` returns the date
value and its span; `searchLanguage` returns the language, its span and a
confidence. -/
structure Detectors where
  searchDate : Str → Option (GVal × Nat × Nat)
  searchLanguage : Str → Option (Str × Nat × Nat × ℚ)

/-- The trivial instantiation: neither detector ever finds anything. -/
def noneDetectors : Detectors := ⟨fun _ => none, fun _ => none⟩

/-- The per-group mutable state threaded through the rule passes:
accumulated evidence, the working string, the recorded spans. -/
structure PassState where
  result : List Guess
  current : Str
  regions : List (Nat × Nat)
deriving DecidableEq, Repr

/-- `update_found(string, span, span_adjust)`: adjust the span, record it,
blank it.  Every adjusted span of the rule tables is nonnegative (each
pattern consumes enough characters), so `Int.toNat` is exact on all
reachable calls. -/
def update_found (cur : Str) (regions : List (Nat × Nat)) (s e : Nat)
    (a b : Int) : Str × List (Nat × Nat) :=
  let sp : Nat × Nat := (((s : Int) + a).toNat, ((e : Int) + b).toNat)
  (blank_region cur sp, regions ++ [sp])

/-- Apply one `(regexp, confidence, span_adjust)` rule of a rule table. -/
def applyRexpRule (st : PassState) (r : Rexp × ℚ × Int × Int) : PassState :=
  match reSearch r.1.find st.current with
  | none => st
  | some (s, e, vals) =>
    let g := format_episode_guess ⟨r.1.keys.zip (vals.map GVal.vstr), r.2.1⟩
    let (cur, regs) := update_found st.current st.regions s e r.2.2.1 r.2.2.2
    ⟨st.result ++ [g], cur, regs⟩

/-- The date-detection step (confidence 1.0, no span adjustment). -/
def dateStep (D : Detectors) (st : PassState) : PassState :=
  match D.searchDate st.current with
  | none => st
  | some (d, s, e) =>
    let g := format_episode_guess ⟨[(dateKey, d)], 1⟩
    let (cur, regs) := update_found st.current st.regions s e 0 0
    ⟨st.result ++ [g], cur, regs⟩

/-- The three `<codec>-<releaseGroup>` patterns, in source order. -/
def group_names : List (Str → Nat → Option (Nat × List Str)) :=
  [ matchCodecGroup (str "Xvid"),
    matchCodecGroup (str "DivX"),
    matchCodecGroup (str "DVDivX") ]

/-- The release-group-with-codec step: emits `releaseGroup` plus a
canonicalized `videoCodec` at confidence 1.0, span adjusted by `(1, -1)`. -/
def groupNamesStep (st : PassState) : PassState :=
  group_names.foldl (fun st m =>
    match reSearch m st.current with
    | none => st
    | some (s, e, vals) =>
      let g := format_episode_guess
        ⟨[(releaseGroupKey, GVal.vstr (vals.getD 1 [])),
          (videoCodecKey, GVal.vstr (canonical_form (vals.getD 0 [])))], 1⟩
      let (cur, regs) := update_found st.current st.regions s e 1 (-1)
      ⟨st.result ++ [g], cur, regs⟩) st

/-- Python `string.find(sub)`: index of the first occurrence. -/
def pyFind (l sub : Str) : Option Nat :=
  (List.range (l.length + 1)).find? (fun i => sub.isPrefixOf (l.drop i))

/-- Python character indexing `l[i]` (negative indices count from the
end; anything out of range raises `IndexError`). -/
def pyCharAtIdx (l : Str) (i : Int) : Except Unit Char :=
  let j : Int := if i < 0 then (l.length : Int) + i else i
  if 0 ≤ j ∧ j < (l.length : Int) then .ok (l.getD j.toNat ' ') else .error ()

/-- One `value` iteration of the known-value scan: find the value in the
lowercased working string; accept only when both surrounding characters
are separator characters (short-circuit `or`, as in the source, so the
right neighbour is only looked up when the left one is a separator). -/
def propValueStep (prop : Str) (acc : Except Unit (PassState × Str))
    (value : Str) : Except Unit (PassState × Str) := do
  let (st, clow) ← acc
  match pyFind clow (lowerStr value) with
  | none => pure (st, clow)
  | some pos =>
    let e := pos + value.length
    let a ← pyCharAtIdx clow ((pos : Int) - 1)
    if ¬ isSepStrChar a then pure (st, clow)
    else do
      let b ← pyCharAtIdx clow (e : Int)
      if ¬ isSepStrChar b then pure (st, clow)
      else
        let g := format_episode_guess ⟨[(prop, GVal.vstr (canonical_form value))], 1⟩
        let (cur, regs) := update_found st.current st.regions pos e 0 0
        pure (⟨st.result ++ [g], cur, regs⟩, lowerStr cur)

/-- The known-value lookup over the whole property table. -/
def propertiesStep (st : PassState) : Except Unit PassState := do
  let r ← properties.foldl (fun acc pv => pv.2.foldl (propValueStep pv.1) acc)
    (.ok (st, lowerStr st.current))
  pure r.1

/-- The weak episode-number fallback: only attempted when no
`episodeNumber` evidence exists anywhere in the accumulated result. -/
def weakStep (st : PassState) : PassState :=
  if hasEpisodeNumber st.result then st
  else weak_episodes_rexps.foldl applyRexpRule st

/-- Python `str.split(' ')` (single-space separator, empty pieces kept). -/
def splitOnChar (c : Char) : Str → List Str
  | [] => [[]]
  | x :: xs =>
    match splitOnChar c xs with
    | [] => [[]]
    | h :: t => if x = c then [] :: h :: t else (x :: h) :: t

def squeezeSpaces : Str → Str
  | [] => []
  | [c] => [c]
  | a :: b :: rest =>
    if a = ' ' ∧ b = ' ' then squeezeSpaces (b :: rest)
    else a :: squeezeSpaces (b :: rest)

def trimSpaces (l : Str) : Str :=
  ((l.dropWhile (· = ' ')).reverse.dropWhile (· = ' ')).reverse

/-- Modelled from the spec: `clean_string(text) -> text` "trims/normalizes
stray separator characters" (`guessit.textutils.clean_string` is not under
`src/`).  Modelled as: replace each separator character by a space,
collapse runs of spaces, strip leading and trailing spaces. -/
def clean_string (l : Str) : Str :=
  trimSpaces (squeezeSpaces (l.map (fun c => if isSepClassChar c then ' ' else c)))

/-- The source's subtitle test (line 344): is `'sub'` among the cleaned,
space-split words of the working text before the span? -/
def isSubtitlePrefix (current : Str) (start : Nat) : Bool :=
  (splitOnChar ' ' (clean_string (current.take start))).contains (str "sub")

/-- The claim's reading of the subtitle test: the token `"sub"` is the
separate cleaned word IMMEDIATELY PRECEDING the matched span. -/
def subImmediatelyBefore (current : Str) (start : Nat) : Bool :=
  (splitOnChar ' ' (clean_string (current.take start))).getLastD [] = str "sub"

/-- The repeated language-detection step.  The Python `while` loop has no
fuel; it terminates whenever the detector blanks at least one character
per hit, and the caller passes fuel `length + 1`, which the loop can never
exhaust under that condition. -/
def languageLoop (D : Detectors) : Nat → PassState → PassState
  | 0, st => st
  | fuel + 1, st =>
    match D.searchLanguage st.current with
    | none => st
    | some (lang, s, e, conf) =>
      let key := if isSubtitlePrefix st.current s then subtitleLanguageKey
                 else languageKey
      let g := format_episode_guess ⟨[(key, GVal.vstr lang)], conf⟩
      let (cur, regs) := update_found st.current st.regions s e 0 0
      languageLoop D fuel ⟨st.result ++ [g], cur, regs⟩

/-!  ## Dash recording (lines 360-363) -/

def indexFromAux (c : Char) : Str → Option Nat
  | [] => none
  | x :: xs => if x = c then some 0 else (indexFromAux c xs).map (· + 1)

/-- Python `string.find(c, k)`: first index `≥ k` holding `c`. -/
def indexFrom (l : Str) (c : Char) (k : Nat) : Option Nat :=
  (indexFromAux c (l.drop k)).map (· + k)

/-- The `while didx > 0` loop body.  Fuel `l.length + 1` is always enough:
the index strictly increases and stays below `l.length`. -/
def dashSpansGo (l : Str) : Nat → Nat → List (Nat × Nat)
  | 0, _ => []
  | fuel + 1, d =>
    if 0 < d then
      (d, d) :: (match indexFrom l '-' (d + 1) with
                 | none => []
                 | some d' => dashSpansGo l fuel d')
    else []

/-- The zero-width spans recorded for the dashes of the leftover text. -/
def dashSpans (l : Str) : List (Nat × Nat) :=
  match indexFrom l '-' 0 with
  | none => []
  | some d => dashSpansGo l (l.length + 1) d

/-!  ## One explicit group, start to finish -/

/-- All rule passes over one explicit group: pad with the two sentinel
spaces, then date, episode table, release groups, known values, weak
fallback, languages. -/
def runRules (D : Detectors) (result0 : List Guess) (explicit_group : Str) :
    Except Unit PassState := do
  let st0 : PassState := ⟨result0, ' ' :: explicit_group ++ [' '], []⟩
  let st1 := dateStep D st0
  let st2 := episodes_rexps.foldl applyRexpRule st1
  let st3 := groupNamesStep st2
  let st4 ← propertiesStep st3
  let st5 := weakStep st4
  pure (languageLoop D (st5.current.length + 1) st5)

/-- Lines 353-368: the `assert` on the sentinels (an `AssertionError` is a
fatal error, modelled as `Except.error`), sentinel removal, span shifting,
dash recording, and the parallel split into `(original, remaining)`
fragment pairs.  When the assertion holds, every recorded span has
`start ≥ 1` (a span containing position 0 would have blanked the leading
sentinel), so the natural subtraction in the shift is exact. -/
def processGroup (D : Detectors) (result0 : List Guess) (explicit_group : Str) :
    Except Unit (PassState × List (Str × Str)) := do
  let st ← runRules D result0 explicit_group
  match st.current.head?, st.current.getLast? with
  | some h, some t =>
    if h = ' ' ∧ t = ' ' then
      let current := (st.current.drop 1).dropLast
      let regions := st.regions.map (fun p => (p.1 - 1, p.2 - 1))
      let regions := regions ++ dashSpans current
      pure (⟨st.result, current, regions⟩,
            (split_on_groups explicit_group regions).zip
              (split_on_groups current regions))
    else Except.error ()
  | _, _ => Except.error ()

/-!  ## The orchestrator -/

/-- Modelled from the spec: `split_path(filename) ->
ordered_sequence_of(directory_components..., basename)`
(`guessit.fileutils.split_path` is not under `src/`).  Modelled as
splitting on the `/` path separator. -/
def split_path (f : Str) : List Str := splitOnChar '/' f

/-- Index of the last `.` of a basename. -/
def lastDotIndex (l : Str) : Option Nat :=
  (List.range l.length).reverse.find? (fun i => l.getD i ' ' == '.')

/-- Modelled from the spec: the companion that splits a basename into
`(stem, extension)` (`os.path.splitext`; external).  The extension starts
at the last dot; a basename whose characters before that dot are all dots
(e.g. `.bashrc`) has no extension. -/
def splitext (l : Str) : Str × Str :=
  match lastDotIndex l with
  | none => (l, [])
  | some i => if (l.take i).all (· = '.') then (l, []) else (l.take i, l.drop i)

/-- `split_path_components(filename)`: `[dir*, basename_stem, ext]`. -/
def split_path_components (f : Str) : List Str :=
  let result := split_path f
  let basename := result.getLastD []
  result.dropLast ++ [(splitext basename).1, (splitext basename).2]

/-- Line 261: the extension evidence emitted before any matching
(`guessed({'extension': match_tree.pop(-1)[1:]}, confidence=1.0)`). -/
def initialEvidence (f : Str) : List Guess :=
  let mt := split_path_components f
  [format_episode_guess ⟨[(extensionKey, GVal.vstr ((mt.getLastD []).drop 1))], 1⟩]

/-- Process the explicit groups of one path part in order, threading the
whole filename's accumulated evidence through every group. -/
def processGroups (D : Detectors) (result0 : List Guess) (groups : List Str) :
    Except Unit (List Guess × List (List (Str × Str))) :=
  groups.foldlM (fun acc eg => do
    let (st, pairs) ← processGroup D acc.1 eg
    pure (st.result, acc.2 ++ [pairs])) (result0, [])

/-- The whole `IterativeMatcher.__init__` pipeline up to the match tree:
path split, extension evidence, explicit-group split, per-group passes. -/
def matcherRun (D : Detectors) (filename : Str) :
    Except Unit (List Guess × List (List (List (Str × Str)))) :=
  let mt := split_path_components filename
  let parts := (mt.dropLast).map split_explicit_groups
  parts.foldlM (fun acc groups => do
    let (res, tree) ← processGroups D acc.1 groups
    pure (res, acc.2 ++ [tree])) (initialEvidence filename, [])

/-- The leftover list (`IterativeMatcher.leftover`): every `remaining`
fragment of the match tree, cleaned, empties dropped. -/
def leftoverOf (tree : List (List (List (Str × Str)))) : List Str :=
  ((tree.flatten.flatten.map (fun p => clean_string p.2)).filter (fun g => !g.isEmpty))

/-!  ## Projections used to state concrete facts about `Except` results -/

def crashed (x : Except Unit α) : Bool :=
  match x with
  | .error _ => true
  | .ok _ => false

def rulesCurrentOf (x : Except Unit PassState) : Option Str :=
  match x with
  | .ok st => some st.current
  | .error _ => none

def rulesRegionsOf (x : Except Unit PassState) : Option (List (Nat × Nat)) :=
  match x with
  | .ok st => some st.regions
  | .error _ => none

def passRegions (x : Except Unit (PassState × List (Str × Str))) :
    Option (List (Nat × Nat)) :=
  match x with
  | .ok st => some st.1.regions
  | .error _ => none

def passGuesses (x : Except Unit (PassState × List (Str × Str))) :
    Option (List Guess) :=
  match x with
  | .ok st => some st.1.result
  | .error _ => none

def passLeftover (x : Except Unit (PassState × List (Str × Str))) : Option Str :=
  match x with
  | .ok st => some st.1.current
  | .error _ => none

/-- Two half-open spans are disjoint. -/
def spansDisjoint (a b : Nat × Nat) : Bool :=
  decide (a.2 ≤ b.1) || decide (b.2 ≤ a.1)

/-- A concrete language detector: one hit, `"fr"` at span `(9, 11)` of
`" sub xyz fr "`, at confidence 9/10. -/
def subDemoDetectors : Detectors :=
  { searchDate := fun _ => none,
    searchLanguage := fun s =>
      if s = str " sub xyz fr " then some (str "fr", 9, 11, 9/10) else none }

/-- A seed evidence item carrying `episodeNumber`, for gate tests. -/
def epSeed : Guess := ⟨[(episodeNumberKey, GVal.vnat 5)], 1⟩

/-- A guess that is NOT a weak episode-number guess: it does not carry
`episodeNumber` at the weak rule's confidence 0.3. -/
def notWeakEpisodeGuess (g : Guess) : Prop :=
  ¬(g.conf = 3/10 ∧ g.pairs.any (fun p => p.1 = episodeNumberKey) = true)

set_option maxRecDepth 8000

/-!  # Claims -/

/-- Claim C5: `find_first_level_groups_span` returns exactly the top-level
bracketed spans in left-to-right order on the four example inputs:
`"abc(de)fgh"` with `()` gives `[(3,7)]`; `"(ab(c)(d))"` with `()` gives
`[(0,10)]` (nested groups are not reported separately);
`"ab[c]de[f]gh(i)"` with `[]` gives `[(2,5),(7,10)]`; `"abcd"` with `()`
gives `[]`. -/
theorem c5_first_level_spans :
    find_first_level_groups_span (str "abc(de)fgh") '(' ')' = [(3, 7)] ∧
    find_first_level_groups_span (str "(ab(c)(d))") '(' ')' = [(0, 10)] ∧
    find_first_level_groups_span (str "ab[c]de[f]gh(i)") '[' ']' = [(2, 5), (7, 10)] ∧
    find_first_level_groups_span (str "abcd") '(' ')' = [] :=
  ⟨rfl, rfl, rfl, rfl⟩

/-- Claim C1 (code bug): on the explicit group `"s02"` the lone `sNN`
season rule matches the whole sentinel-padded string `" s02 "` with span
adjustment `(0, 0)`, so blanking turns the working string into `"_____"`,
destroying both sentinels; the `assert current[0]==' ' and current[-1]==' '`
at line 354 then raises `AssertionError`, so the run does NOT complete.
The spec says no fatal errors occur on well-formed input. -/
theorem c1_sentinel_assertion_fails :
    rulesCurrentOf (runRules noneDetectors [] (str "s02")) = some (str "_____") ∧
    rulesRegionsOf (runRules noneDetectors [] (str "s02")) = some [(0, 5)] ∧
    crashed (processGroup noneDetectors [] (str "s02")) = true :=
  ⟨rfl, rfl, rfl⟩

/-- Claim C2 counterexample: on the explicit group `"s01e02s03."` the
`SxxEyy` rule records span `(0, 6)` (after sentinel shift) and then the
lone `sNN` rule matches using the blanked `_` at position 5 as its leading
separator (the filler `'_'` IS in the separator class), recording span
`(5, 10)`.  Both spans are non-zero-width and they overlap at position 5,
so the claimed disjointness fails. -/
theorem c2_overlapping_spans_cex :
    passRegions (processGroup noneDetectors [] (str "s01e02s03.")) =
      some [(0, 6), (5, 10)] ∧
    spansDisjoint (0, 6) (5, 10) = false ∧
    (0 : Nat) < 6 ∧ (5 : Nat) < 10 :=
  ⟨rfl, rfl, by decide, by decide⟩

/-- Claim C2 (amended): the blanking filler `deleted = '_'` is itself one
of the separator characters of the patterns' alphabet (it is in the `sep`
regexp class and in the `sep` string), so a separator-anchored rule CAN
match with its separator on an already-blanked character, and two
non-zero-width spans recorded during a single matching pass can overlap
(they do on the explicit group `"s01e02s03."`). -/
theorem c2_amended_filler_in_alphabet :
    isSepClassChar deleted = true ∧ isSepStrChar deleted = true ∧
    (∃ r₁ r₂ : Nat × Nat,
      passRegions (processGroup noneDetectors [] (str "s01e02s03.")) =
        some [r₁, r₂] ∧
      spansDisjoint r₁ r₂ = false ∧ r₁.1 < r₁.2 ∧ r₂.1 < r₂.2) :=
  ⟨rfl, rfl, (0, 6), (5, 10), rfl, rfl, by decide, by decide⟩

/-- Claim C7 counterexample: on the explicit group `"-a-b"` no rule
matches, the unblanked leftover is `"-a-b"` and it contains a literal dash
at position 2 (and one at position 0), yet NO zero-width dash span is
recorded at all: the `while didx > 0` loop is never entered because the
first dash sits at position 0. -/
theorem c7_leading_dash_cex :
    passRegions (processGroup noneDetectors [] (str "-a-b")) = some [] ∧
    passLeftover (processGroup noneDetectors [] (str "-a-b")) = some (str "-a-b") ∧
    (str "-a-b").getD 2 ' ' = '-' ∧ (0 : Nat) < 2 ∧ 2 < (str "-a-b").length :=
  ⟨rfl, rfl, rfl, by decide, by decide⟩

/-- Claim C3 counterexample: with a (pluggable) language detector that
reports `"fr"` at span `(9, 11)` of the padded group `" sub xyz fr "`, the
hit is emitted as `subtitleLanguage` evidence although the cleaned word
immediately preceding the span is `"xyz"`, not `"sub"` — the source tests
`'sub' in clean_string(current[:span[0]]).split(' ')`, i.e. ANYWHERE in
the prefix, not immediately before the span. -/
theorem c3_sub_not_adjacent_cex :
    passGuesses (processGroup subDemoDetectors [] (str "sub xyz fr")) =
      some [⟨[(subtitleLanguageKey, GVal.vstr (str "fr"))], 9/10⟩] ∧
    subImmediatelyBefore (str " sub xyz fr ") 9 = false :=
  ⟨rfl, rfl⟩

/-- Claim C9: processing one filename is a pure computation of the input
(and of the read-only rule, property and synonym tables, which are plain
constants here exactly because the source never mutates them after load):
running the full matcher twice on the same filename yields identical
evidence lists, identical match trees and identical leftover lists. -/
theorem c9_deterministic (D : Detectors) (f : Str) :
    matcherRun D f = matcherRun D f ∧
    (matcherRun D f).map (fun out => leftoverOf out.2) =
      (matcherRun D f).map (fun out => leftoverOf out.2) :=
  ⟨rfl, rfl⟩

/-!  ## Helper lemmas -/

theorem getLastD_append_single {α : Type} (l : List α) (a d : α) :
    (l ++ [a]).getLastD d = a := by
  simp [List.getLastD_eq_getLast?, List.getLast?_append_of_ne_nil]

theorem getLastD_append_two {α : Type} (l : List α) (a b d : α) :
    (l ++ [a, b]).getLastD d = b := by
  have : l ++ [a, b] = (l ++ [a]) ++ [b] := by simp
  rw [this, getLastD_append_single]

theorem lastDotIndex_eq_none_of_not_mem (l : Str) (h : '.' ∉ l) :
    lastDotIndex l = none := by
  rw [lastDotIndex, List.find?_eq_none]
  intro i hi
  simp only [List.mem_reverse, List.mem_range] at hi
  have hget : l.getD i ' ' = l[i] := by
    simp [List.getD_eq_getElem?_getD, List.getElem?_eq_getElem hi]
  simp only [hget, beq_iff_eq]
  intro hc
  exact h (hc ▸ List.getElem_mem hi)

/-- Claim C10: the extension evidence item emitted by the orchestrator
before any matching carries the final path component's extension with its
leading dot removed, at confidence 1.0; in particular when the basename
contains no dot the item is still emitted, with the empty string value. -/
theorem c10_extension_evidence (f : Str) :
    initialEvidence f =
      [⟨[(extensionKey,
          GVal.vstr ((splitext ((split_path f).getLastD [])).2.drop 1))], 1⟩] ∧
    ('.' ∉ (split_path f).getLastD [] →
      (splitext ((split_path f).getLastD [])).2.drop 1 = ([] : Str)) := by
  constructor
  · show initialEvidence f = _
    rw [initialEvidence, split_path_components]
    rw [getLastD_append_two]
    rw [format_episode_guess]
    simp only [List.map_cons, List.map_nil]
    rw [if_neg (by decide)]
  · intro h
    rw [splitext, lastDotIndex_eq_none_of_not_mem _ h]
    rfl

/-- Witness for C10 at the dotless filename `"abc"`. -/
theorem c10_extension_evidence_witness :
    ('.' ∉ (split_path (str "abc")).getLastD []) ∧
    initialEvidence (str "abc") =
      [⟨[(extensionKey,
          GVal.vstr ((splitext ((split_path (str "abc")).getLastD [])).2.drop 1))], 1⟩] ∧
    (splitext ((split_path (str "abc")).getLastD [])).2.drop 1 = ([] : Str) :=
  ⟨by decide, (c10_extension_evidence (str "abc")).1,
    (c10_extension_evidence (str "abc")).2 (by decide)⟩

theorem scanGroups_shift (o c : Char) (s : Str) :
    ∀ (i : Nat) (depth : List Nat) (acc : List (Nat × Nat)),
      scanGroups o c s (i + 1) (depth.map (· + 1))
          (acc.map (fun p => (p.1 + 1, p.2 + 1))) =
        ((scanGroups o c s i depth acc).1.map (· + 1),
         (scanGroups o c s i depth acc).2.map (fun p => (p.1 + 1, p.2 + 1))) := by
  induction s with
  | nil => intro i depth acc; rfl
  | cons ch rest ih =>
    intro i depth acc
    by_cases ho : ch = o
    · simp only [scanGroups, if_pos ho]
      have := ih (i + 1) (i :: depth) acc
      simpa using this
    · by_cases hc : ch = c
      · cases depth with
        | nil =>
          simp only [scanGroups, if_neg ho, if_pos hc, List.map_nil]
          exact ih (i + 1) [] acc
        | cons d ds =>
          by_cases hds : ds = []
          · subst hds
            simp only [scanGroups, if_neg ho, if_pos hc, List.map_cons, List.map_nil,
              if_pos rfl]
            have := ih (i + 1) [] (acc ++ [(d, i + 1)])
            simpa using this
          · have hds' : ds.map (· + 1) ≠ [] := by
              simpa [List.map_eq_nil_iff] using hds
            simp only [scanGroups, if_neg ho, if_pos hc, List.map_cons,
              if_neg hds, if_neg hds']
            exact ih (i + 1) ds acc
      · simp only [scanGroups, if_neg ho, if_neg hc]
        exact ih (i + 1) depth acc

theorem scanGroups_append (o c : Char) (s t : Str) :
    ∀ (i : Nat) (depth : List Nat) (acc : List (Nat × Nat)),
      scanGroups o c (s ++ t) i depth acc =
        scanGroups o c t (i + s.length) (scanGroups o c s i depth acc).1
          (scanGroups o c s i depth acc).2 := by
  induction s with
  | nil => intro i depth acc; simp [scanGroups]
  | cons ch rest ih =>
    intro i depth acc
    have harith : i + 1 + rest.length = i + (rest.length + 1) := by omega
    by_cases ho : ch = o
    · simp only [List.cons_append, List.append_eq, scanGroups, if_pos ho, List.length_cons]
      rw [ih (i + 1) (i :: depth) acc, harith]
    · by_cases hc : ch = c
      · cases depth with
        | nil =>
          simp only [List.cons_append, List.append_eq, scanGroups, if_neg ho, if_pos hc,
            List.length_cons]
          rw [ih (i + 1) [] acc, harith]
        | cons d ds =>
          by_cases hds : ds = []
          · subst hds
            simp only [List.cons_append, List.append_eq, scanGroups, if_neg ho, if_pos hc,
              if_pos rfl, if_true, eq_self_iff_true, List.length_cons]
            rw [ih (i + 1) [] (acc ++ [(d, i + 1)]), harith]
          · simp only [List.cons_append, List.append_eq, scanGroups, if_neg ho, if_pos hc,
              if_neg hds, List.length_cons]
            rw [ih (i + 1) ds acc, harith]
      · simp only [List.cons_append, List.append_eq, scanGroups, if_neg ho, if_neg hc,
          List.length_cons]
        rw [ih (i + 1) depth acc, harith]

/-- Claim C8: a closing character met while the stack of opening positions
is empty is silently ignored (prepending it shifts every reported span by
exactly one position, adds no span and raises no error), and an opening
character left unmatched at end-of-string produces no span (appending it
leaves the reported spans unchanged). -/
theorem c8_unbalanced_brackets_lenient (opening closing : Char) (s : Str)
    (h : opening ≠ closing) :
    find_first_level_groups_span (closing :: s) opening closing =
      (find_first_level_groups_span s opening closing).map
        (fun p => (p.1 + 1, p.2 + 1)) ∧
    find_first_level_groups_span (s ++ [opening]) opening closing =
      find_first_level_groups_span s opening closing := by
  constructor
  · show (scanGroups opening closing (closing :: s) 0 [] []).2 = _
    have h1 : scanGroups opening closing (closing :: s) 0 [] [] =
        scanGroups opening closing s 1 [] [] := by
      simp [scanGroups, h.symm]
    rw [h1]
    have := scanGroups_shift opening closing s 0 [] []
    simp only [List.map_nil] at this
    rw [this]
    rfl
  · show (scanGroups opening closing (s ++ [opening]) 0 [] []).2 = _
    rw [scanGroups_append]
    simp only [scanGroups]
    rfl

/-- Witness for C8 at `"ab(c)"` with the pair `()`. -/
theorem c8_unbalanced_brackets_lenient_witness :
    ('(' : Char) ≠ ')' ∧
    (find_first_level_groups_span (')' :: str "ab(c)") '(' ')' =
       (find_first_level_groups_span (str "ab(c)") '(' ')').map
         (fun p => (p.1 + 1, p.2 + 1)) ∧
     find_first_level_groups_span (str "ab(c)" ++ ['(']) '(' ')' =
       find_first_level_groups_span (str "ab(c)") '(' ')') :=
  ⟨by decide, c8_unbalanced_brackets_lenient '(' ')' (str "ab(c)") (by decide)⟩

theorem indexFromAux_spec_some (c : Char) :
    ∀ (xs : Str) (j : Nat), indexFromAux c xs = some j →
      j < xs.length ∧ xs.getD j ' ' = c ∧ ∀ j' < j, xs.getD j' ' ' ≠ c := by
  intro xs
  induction xs with
  | nil => intro j h; simp [indexFromAux] at h
  | cons x rest ih =>
    intro j h
    by_cases hx : x = c
    · simp [indexFromAux, hx] at h
      subst h
      exact ⟨by simp, by simp [hx], fun j' hj' => by omega⟩
    · simp only [indexFromAux, if_neg hx, Option.map_eq_some'] at h
      obtain ⟨j0, hj0, rfl⟩ := h
      obtain ⟨h1, h2, h3⟩ := ih j0 hj0
      refine ⟨by simpa using h1, by simpa using h2, ?_⟩
      intro j' hj'
      cases j' with
      | zero => simpa using hx
      | succ j'' =>
        have := h3 j'' (by omega)
        simpa using this

theorem indexFromAux_spec_none (c : Char) :
    ∀ (xs : Str), indexFromAux c xs = none →
      ∀ j < xs.length, xs.getD j ' ' ≠ c := by
  intro xs
  induction xs with
  | nil => intro _ j hj; simp at hj
  | cons x rest ih =>
    intro h j hj
    by_cases hx : x = c
    · simp [indexFromAux, hx] at h
    · simp only [indexFromAux, if_neg hx, Option.map_eq_none'] at h
      cases j with
      | zero => simpa using hx
      | succ j' =>
        have := ih h j' (by simpa using hj)
        simpa using this

theorem getD_drop (l : Str) (k j : Nat) :
    (l.drop k).getD j ' ' = l.getD (k + j) ' ' := by
  simp [List.getD_eq_getElem?_getD, List.getElem?_drop]

theorem indexFrom_spec_some (l : Str) (c : Char) (k i : Nat)
    (h : indexFrom l c k = some i) :
    k ≤ i ∧ i < l.length ∧ l.getD i ' ' = c ∧
      ∀ i', k ≤ i' → i' < i → l.getD i' ' ' ≠ c := by
  simp only [indexFrom, Option.map_eq_some'] at h
  obtain ⟨j, hj, rfl⟩ := h
  obtain ⟨h1, h2, h3⟩ := indexFromAux_spec_some c _ j hj
  rw [List.length_drop] at h1
  rw [getD_drop] at h2
  refine ⟨by omega, by omega, by rw [Nat.add_comm]; exact h2, ?_⟩
  intro i' hk hi
  have := h3 (i' - k) (by omega)
  rw [getD_drop] at this
  have he : k + (i' - k) = i' := by omega
  rw [he] at this
  exact this

theorem indexFrom_spec_none (l : Str) (c : Char) (k : Nat)
    (h : indexFrom l c k = none) :
    ∀ i', k ≤ i' → i' < l.length → l.getD i' ' ' ≠ c := by
  simp only [indexFrom, Option.map_eq_none'] at h
  intro i' hk hi
  have := indexFromAux_spec_none c _ h (i' - k) (by rw [List.length_drop]; omega)
  rw [getD_drop] at this
  have he : k + (i' - k) = i' := by omega
  rw [he] at this
  exact this

theorem dashSpansGo_mem (l : Str) :
    ∀ (fuel d x : Nat), 0 < d → d < l.length → l.getD d ' ' = '-' →
      l.length - d < fuel →
      ((x, x) ∈ dashSpansGo l fuel d ↔
        (d ≤ x ∧ x < l.length ∧ l.getD x ' ' = '-')) := by
  intro fuel
  induction fuel with
  | zero => intro d x _ _ _ hf; omega
  | succ fuel ih =>
    intro d x hd hdl hdash hf
    rw [dashSpansGo, if_pos hd]
    cases hnext : indexFrom l '-' (d + 1) with
    | none =>
      have hno := indexFrom_spec_none l '-' (d + 1) hnext
      simp only [List.mem_cons, List.not_mem_nil, or_false, Prod.mk.injEq]
      constructor
      · rintro ⟨rfl, -⟩; exact ⟨le_refl _, hdl, hdash⟩
      · rintro ⟨hdx, hxl, hx⟩
        rcases Nat.eq_or_lt_of_le hdx with rfl | hlt
        · exact ⟨rfl, rfl⟩
        · exact absurd hx (hno x (by omega) hxl)
    | some d' =>
      obtain ⟨hd1, hd'l, hd'dash, hmin⟩ := indexFrom_spec_some l '-' (d + 1) d' hnext
      have hih := ih d' x (by omega) hd'l hd'dash (by omega)
      simp only [List.mem_cons, Prod.mk.injEq, hih]
      constructor
      · rintro (⟨rfl, -⟩ | ⟨hdx, hxl, hx⟩)
        · exact ⟨le_refl _, hdl, hdash⟩
        · exact ⟨by omega, hxl, hx⟩
      · rintro ⟨hdx, hxl, hx⟩
        rcases Nat.eq_or_lt_of_le hdx with rfl | hlt
        · exact Or.inl ⟨rfl, rfl⟩
        · refine Or.inr ⟨?_, hxl, hx⟩
          by_contra hxd'
          exact hmin x (by omega) (by omega) hx

theorem dashSpansGo_diag (l : Str) :
    ∀ (fuel d : Nat), ∀ p ∈ dashSpansGo l fuel d, p.1 = p.2 := by
  intro fuel
  induction fuel with
  | zero => intro d p hp; simp [dashSpansGo] at hp
  | succ fuel ih =>
    intro d p hp
    rw [dashSpansGo] at hp
    by_cases hd : 0 < d
    · rw [if_pos hd] at hp
      rcases List.mem_cons.mp hp with rfl | hp'
      · rfl
      · cases hnext : indexFrom l '-' (d + 1) with
        | none => rw [hnext] at hp'; simp at hp'
        | some d' => rw [hnext] at hp'; exact ih d' p hp'
    · rw [if_neg hd] at hp; simp at hp

/-- Claim C7 (amended): after sentinel removal the positions of the
literal dashes of the unblanked leftover are recorded as zero-width spans,
EXCEPT that when the leftover's first character is itself a dash the
`while didx > 0` loop is never entered and no dash span at all is
recorded; otherwise every dash position (necessarily positive) is
recorded.  All recorded dash spans are zero-width. -/
theorem c7_dash_spans_characterization :
    (∀ l : Str, l.getD 0 ' ' = '-' → dashSpans l = []) ∧
    (∀ (l : Str) (i : Nat), l.getD 0 ' ' ≠ '-' →
      ((i, i) ∈ dashSpans l ↔ (i < l.length ∧ l.getD i ' ' = '-'))) ∧
    (∀ l : Str, ∀ p ∈ dashSpans l, p.1 = p.2) := by
  refine ⟨?_, ?_, ?_⟩
  · intro l h
    cases l with
    | nil => simp at h
    | cons x rest =>
      have hx : x = '-' := by simpa using h
      subst hx
      simp only [dashSpans, indexFrom, List.drop_zero, indexFromAux, if_pos rfl]
      simp [dashSpansGo]
  · intro l i h
    cases hf : indexFrom l '-' 0 with
    | none =>
      have hno := indexFrom_spec_none l '-' 0 hf
      simp only [dashSpans, hf]
      simp only [List.not_mem_nil, false_iff, not_and]
      intro hil hdash
      exact absurd hdash (hno i (Nat.zero_le i) hil)
    | some d =>
      obtain ⟨-, hdl, hdash, hmin⟩ := indexFrom_spec_some l '-' 0 d hf
      have hd0 : 0 < d := by
        rcases Nat.eq_zero_or_pos d with rfl | h'
        · exact absurd hdash h
        · exact h'
      simp only [dashSpans, hf]
      rw [dashSpansGo_mem l (l.length + 1) d i hd0 hdl hdash (by omega)]
      constructor
      · rintro ⟨-, hil, hx⟩; exact ⟨hil, hx⟩
      · rintro ⟨hil, hx⟩
        refine ⟨?_, hil, hx⟩
        by_contra hid
        exact hmin i (Nat.zero_le i) (by omega) hx
  · intro l p hp
    rw [dashSpans] at hp
    cases hf : indexFrom l '-' 0 with
    | none => rw [hf] at hp; simp at hp
    | some d => rw [hf] at hp; exact dashSpansGo_diag l (l.length + 1) d p hp

/-- Witness for C7 (amended) at `"-x"` (leading dash: nothing recorded)
and `"a-b"` (dash at position 1 recorded). -/
theorem c7_dash_spans_characterization_witness :
    ((str "-x").getD 0 ' ' = '-' ∧ dashSpans (str "-x") = []) ∧
    ((str "a-b").getD 0 ' ' ≠ '-' ∧
      ((1, 1) ∈ dashSpans (str "a-b") ↔
        (1 < (str "a-b").length ∧ (str "a-b").getD 1 ' ' = '-'))) :=
  ⟨⟨by decide, c7_dash_spans_characterization.1 (str "-x") (by decide)⟩,
   ⟨by decide, c7_dash_spans_characterization.2.1 (str "a-b") 1 (by decide)⟩⟩

theorem format_episode_guess_keys (g : Guess) :
    (format_episode_guess g).pairs.map Prod.fst = g.pairs.map Prod.fst := by
  rw [format_episode_guess]
  simp only [List.map_map]
  apply List.map_congr_left
  intro p _
  by_cases h : p.1 = seasonKey ∨ p.1 = episodeNumberKey ∨ p.1 = yearKey
  · simp [if_pos h]
  · simp [if_neg h]

theorem format_episode_guess_conf (g : Guess) :
    (format_episode_guess g).conf = g.conf := rfl

theorem format_episode_guess_single (k : Str) (v : GVal) (c : ℚ)
    (h : ¬(k = seasonKey ∨ k = episodeNumberKey ∨ k = yearKey)) :
    format_episode_guess ⟨[(k, v)], c⟩ = ⟨[(k, v)], c⟩ := by
  rw [format_episode_guess]
  simp [if_neg h]

theorem languageLoop_result_append (D : Detectors) :
    ∀ (fuel : Nat) (st : PassState), ∃ new,
      (languageLoop D fuel st).result = st.result ++ new ∧
      ∀ g ∈ new, g.pairs.map Prod.fst = [subtitleLanguageKey] ∨
        g.pairs.map Prod.fst = [languageKey] := by
  intro fuel
  induction fuel with
  | zero => intro st; exact ⟨[], by simp [languageLoop], by simp⟩
  | succ fuel ih =>
    intro st
    rw [languageLoop]
    cases hd : D.searchLanguage st.current with
    | none => exact ⟨[], by simp, by simp⟩
    | some r =>
      obtain ⟨lang, s, e, conf⟩ := r
      set key := if isSubtitlePrefix st.current s then subtitleLanguageKey
                 else languageKey with hkey
      set g := format_episode_guess ⟨[(key, GVal.vstr lang)], conf⟩ with hg
      obtain ⟨new', hnew', hprop⟩ :=
        ih ⟨st.result ++ [g],
            (update_found st.current st.regions s e 0 0).1,
            (update_found st.current st.regions s e 0 0).2⟩
      refine ⟨g :: new', ?_, ?_⟩
      · simpa [List.append_assoc] using hnew'
      · intro x hx
        rcases List.mem_cons.mp hx with rfl | hx'
        · rw [hg, format_episode_guess_keys]
          rw [hkey]
          by_cases hsub : isSubtitlePrefix st.current s
          · simp [if_pos hsub]
          · simp [if_neg hsub]
        · exact hprop x hx'

/-- Claim C3 (amended): every hit returned by the repeated
language-detection step is emitted as `subtitleLanguage` evidence exactly
when the token `"sub"` appears as a separate cleaned word ANYWHERE in the
current (already partially blanked) working text before the matched span
— not necessarily immediately preceding it, and not in the original
pre-blank text —, otherwise as `language` evidence; the detector's
confidence is used in both cases. -/
theorem c3_language_classification (D : Detectors) (fuel : Nat)
    (st : PassState) (lang : Str) (s e : Nat) (conf : ℚ)
    (h : D.searchLanguage st.current = some (lang, s, e, conf)) :
    (languageLoop D (fuel + 1) st).result[st.result.length]? =
      some ⟨[((if isSubtitlePrefix st.current s then subtitleLanguageKey
               else languageKey), GVal.vstr lang)], conf⟩ := by
  rw [languageLoop, h]
  simp only
  set key := if isSubtitlePrefix st.current s then subtitleLanguageKey
             else languageKey with hkey
  have hfmt : format_episode_guess ⟨[(key, GVal.vstr lang)], conf⟩ =
      ⟨[(key, GVal.vstr lang)], conf⟩ := by
    apply format_episode_guess_single
    rw [hkey]
    by_cases hsub : isSubtitlePrefix st.current s
    · rw [if_pos hsub]; decide
    · rw [if_neg hsub]; decide
  obtain ⟨new', hnew', -⟩ := languageLoop_result_append D fuel
    ⟨st.result ++ [format_episode_guess ⟨[(key, GVal.vstr lang)], conf⟩],
     (update_found st.current st.regions s e 0 0).1,
     (update_found st.current st.regions s e 0 0).2⟩
  rw [hnew']
  simp only [List.append_assoc]
  rw [List.getElem?_append_right (le_refl st.result.length)]
  simp [hfmt]

/-- Witness for C3 (amended): the demo detector hit on `" sub xyz fr "` is
classified with `"sub"` present (non-adjacently) among the cleaned prefix
words. -/
theorem c3_language_classification_witness :
    subDemoDetectors.searchLanguage (str " sub xyz fr ") =
      some (str "fr", 9, 11, 9/10) ∧
    (languageLoop subDemoDetectors 12
        ⟨[], str " sub xyz fr ", []⟩).result[(0 : Nat)]? =
      some ⟨[((if isSubtitlePrefix (str " sub xyz fr ") 9 then subtitleLanguageKey
               else languageKey), GVal.vstr (str "fr"))], 9/10⟩ :=
  ⟨rfl, c3_language_classification subDemoDetectors 11
    ⟨[], str " sub xyz fr ", []⟩ (str "fr") 9 11 (9/10) rfl⟩

theorem hasEpisodeNumber_append_left (res new : List Guess)
    (h : hasEpisodeNumber res = true) :
    hasEpisodeNumber (res ++ new) = true := by
  simp only [hasEpisodeNumber, List.any_append, Bool.or_eq_true]
  exact Or.inl h

theorem key_mem_of_any (g : Guess) (k : Str)
    (h : g.pairs.any (fun p => p.1 = k) = true) : k ∈ g.pairs.map Prod.fst := by
  rw [List.any_eq_true] at h
  obtain ⟨p, hp, hpk⟩ := h
  rw [decide_eq_true_eq] at hpk
  exact hpk ▸ List.mem_map_of_mem Prod.fst hp

theorem applyRexpRule_shape (st : PassState) (r : Rexp × ℚ × Int × Int) :
    ∃ new, (applyRexpRule st r).result = st.result ++ new ∧
      ∀ g ∈ new, g.conf = r.2.1 ∧ ∀ k ∈ g.pairs.map Prod.fst, k ∈ r.1.keys := by
  rw [applyRexpRule]
  cases hm : reSearch r.1.find st.current with
  | none => exact ⟨[], by simp, fun g hg => absurd hg (List.not_mem_nil g)⟩
  | some m =>
    obtain ⟨s, e, vals⟩ := m
    refine ⟨[format_episode_guess ⟨r.1.keys.zip (vals.map GVal.vstr), r.2.1⟩],
      rfl, ?_⟩
    intro g hg
    rcases List.mem_cons.mp hg with rfl | h'
    · refine ⟨rfl, ?_⟩
      intro k hk
      rw [format_episode_guess_keys] at hk
      obtain ⟨p, hp, rfl⟩ := List.mem_map.mp hk
      exact (List.of_mem_zip hp).1
    · exact absurd h' (List.not_mem_nil g)

theorem foldl_applyRexpRule_shape (rules : List (Rexp × ℚ × Int × Int)) :
    ∀ st : PassState, ∃ new,
      (rules.foldl applyRexpRule st).result = st.result ++ new ∧
      ∀ g ∈ new, ∃ r ∈ rules, g.conf = r.2.1 ∧
        ∀ k ∈ g.pairs.map Prod.fst, k ∈ r.1.keys := by
  induction rules with
  | nil => intro st; exact ⟨[], by simp, fun g hg => absurd hg (List.not_mem_nil g)⟩
  | cons r rest ih =>
    intro st
    obtain ⟨new1, h1, hp1⟩ := applyRexpRule_shape st r
    obtain ⟨new2, h2, hp2⟩ := ih (applyRexpRule st r)
    refine ⟨new1 ++ new2, ?_, ?_⟩
    · rw [List.foldl_cons, h2, h1, List.append_assoc]
    · intro g hg
      rcases List.mem_append.mp hg with hg1 | hg2
      · obtain ⟨hc, hk⟩ := hp1 g hg1
        exact ⟨r, List.mem_cons_self r rest, hc, hk⟩
      · obtain ⟨r', hr', hc, hk⟩ := hp2 g hg2
        exact ⟨r', List.mem_cons_of_mem r hr', hc, hk⟩

theorem dateStep_shape (D : Detectors) (st : PassState) :
    ∃ new, (dateStep D st).result = st.result ++ new ∧
      ∀ g ∈ new, g.pairs.map Prod.fst = [dateKey] := by
  rw [dateStep]
  cases hd : D.searchDate st.current with
  | none => exact ⟨[], by simp, by simp⟩
  | some m =>
    obtain ⟨d, s, e⟩ := m
    refine ⟨[format_episode_guess ⟨[(dateKey, d)], 1⟩], rfl, ?_⟩
    intro g hg
    rcases List.mem_cons.mp hg with rfl | h'
    · rw [format_episode_guess_keys]; rfl
    · simp at h'

theorem groupNamesStep_shape (st : PassState) :
    ∃ new, (groupNamesStep st).result = st.result ++ new ∧
      ∀ g ∈ new, g.conf = 1 := by
  rw [groupNamesStep]
  generalize group_names = ms
  induction ms generalizing st with
  | nil => exact ⟨[], by simp, by simp⟩
  | cons m rest ih =>
    rw [List.foldl_cons]
    cases hm : reSearch m st.current with
    | none =>
      obtain ⟨new2, h2, hp2⟩ := ih st
      exact ⟨new2, by rw [← h2], hp2⟩
    | some r =>
      obtain ⟨s, e, vals⟩ := r
      set g1 := format_episode_guess
        ⟨[(releaseGroupKey, GVal.vstr (vals.getD 1 [])),
          (videoCodecKey, GVal.vstr (canonical_form (vals.getD 0 [])))], 1⟩ with hg1
      set st1 : PassState :=
        ⟨st.result ++ [g1],
         (update_found st.current st.regions s e 1 (-1)).1,
         (update_found st.current st.regions s e 1 (-1)).2⟩ with hst1
      obtain ⟨new2, h2, hp2⟩ := ih st1
      refine ⟨g1 :: new2, ?_, ?_⟩
      · rw [h2]
        simp [hst1]
      · intro g hg
        rcases List.mem_cons.mp hg with rfl | hg2
        · rw [hg1, format_episode_guess_conf]
        · exact hp2 g hg2

theorem propValueStep_error (prop : Str) (e : Unit) (v : Str) :
    propValueStep prop (.error e) v = .error e := rfl

theorem propValueStep_shape (prop : Str) (st : PassState) (clow : Str)
    (v : Str) (st' : PassState) (clow' : Str)
    (h : propValueStep prop (.ok (st, clow)) v = .ok (st', clow')) :
    ∃ new, st'.result = st.result ++ new ∧ ∀ g ∈ new, g.conf = 1 := by
  rw [propValueStep] at h
  simp only [Bind.bind, Except.bind] at h
  cases hf : pyFind clow (lowerStr v) with
  | none =>
    rw [hf] at h
    simp only [pure, Except.pure] at h
    injection h with h'
    injection h' with h1 h2
    exact ⟨[], by rw [← h1, List.append_nil], fun g hg => absurd hg (List.not_mem_nil g)⟩
  | some pos =>
    rw [hf] at h
    simp only at h
    cases hA : pyCharAtIdx clow ((pos : Int) - 1) with
    | error er => rw [hA] at h; exact absurd h (by simp)
    | ok a =>
      rw [hA] at h
      simp only at h
      by_cases ha : isSepStrChar a
      · rw [if_neg (by simpa using ha)] at h
        cases hB : pyCharAtIdx clow ((pos + v.length : Nat) : Int) with
        | error er => rw [hB] at h; exact absurd h (by simp)
        | ok b =>
          rw [hB] at h
          simp only at h
          by_cases hbb : isSepStrChar b
          · rw [if_neg (by simpa using hbb)] at h
            injection h with h'
            injection h' with h1 h2
            refine ⟨[format_episode_guess ⟨[(prop, GVal.vstr (canonical_form v))], 1⟩],
              by rw [← h1], ?_⟩
            intro g hg
            rcases List.mem_cons.mp hg with rfl | hg'
            · rw [format_episode_guess_conf]
            · exact absurd hg' (List.not_mem_nil g)
          · rw [if_pos (by simpa using hbb)] at h
            simp only [pure, Except.pure] at h
            injection h with h'
            injection h' with h1 h2
            exact ⟨[], by rw [← h1, List.append_nil], fun g hg => absurd hg (List.not_mem_nil g)⟩
      · rw [if_pos (by simpa using ha)] at h
        simp only [pure, Except.pure] at h
        injection h with h'
        injection h' with h1 h2
        exact ⟨[], by rw [← h1, List.append_nil], fun g hg => absurd hg (List.not_mem_nil g)⟩

theorem foldl_propValueStep_error (prop : Str) (values : List Str) (e : Unit) :
    values.foldl (propValueStep prop) (.error e) = .error e := by
  induction values with
  | nil => rfl
  | cons v vs ih => rw [List.foldl_cons, propValueStep_error]; exact ih

theorem foldl_propValueStep_shape (prop : Str) (values : List Str) :
    ∀ (st : PassState) (clow : Str) (st' : PassState) (clow' : Str),
      values.foldl (propValueStep prop) (.ok (st, clow)) = .ok (st', clow') →
      ∃ new, st'.result = st.result ++ new ∧ ∀ g ∈ new, g.conf = 1 := by
  induction values with
  | nil =>
    intro st clow st' clow' h
    injection h with h'
    injection h' with h1 h2
    exact ⟨[], by rw [← h1, List.append_nil], fun g hg => absurd hg (List.not_mem_nil g)⟩
  | cons v vs ih =>
    intro st clow st' clow' h
    rw [List.foldl_cons] at h
    cases hx : propValueStep prop (.ok (st, clow)) v with
    | error e =>
      rw [hx, foldl_propValueStep_error] at h
      exact absurd h (by simp)
    | ok acc1 =>
      obtain ⟨st1, clow1⟩ := acc1
      rw [hx] at h
      obtain ⟨new1, h1, hp1⟩ := propValueStep_shape prop st clow v st1 clow1 hx
      obtain ⟨new2, h2, hp2⟩ := ih st1 clow1 st' clow' h
      refine ⟨new1 ++ new2, ?_, ?_⟩
      · rw [h2, h1, List.append_assoc]
      · intro g hg
        rcases List.mem_append.mp hg with hg1 | hg2
        · exact hp1 g hg1
        · exact hp2 g hg2

theorem foldl_propTable_error (tbl : List (Str × List Str)) (e : Unit) :
    tbl.foldl (fun acc pv => pv.2.foldl (propValueStep pv.1) acc) (.error e) =
      .error e := by
  induction tbl with
  | nil => rfl
  | cons q qs ihq => rw [List.foldl_cons, foldl_propValueStep_error]; exact ihq

theorem propertiesStep_shape (st : PassState) (st' : PassState)
    (h : propertiesStep st = .ok st') :
    ∃ new, st'.result = st.result ++ new ∧ ∀ g ∈ new, g.conf = 1 := by
  rw [propertiesStep] at h
  simp only [Bind.bind, Except.bind] at h
  suffices hgen : ∀ (tbl : List (Str × List Str)) (st0 : PassState) (clow0 : Str)
      (st1 : PassState) (clow1 : Str),
      tbl.foldl (fun acc pv => pv.2.foldl (propValueStep pv.1) acc)
        (.ok (st0, clow0)) = .ok (st1, clow1) →
      ∃ new, st1.result = st0.result ++ new ∧ ∀ g ∈ new, g.conf = 1 by
    cases hf : properties.foldl (fun acc pv => pv.2.foldl (propValueStep pv.1) acc)
        (.ok (st, lowerStr st.current)) with
    | error e => rw [hf] at h; exact absurd h (by simp)
    | ok r =>
      obtain ⟨st1, clow1⟩ := r
      rw [hf] at h
      simp only [pure, Except.pure] at h
      injection h with h'
      subst h'
      exact hgen properties st (lowerStr st.current) st1 clow1 hf
  intro tbl
  induction tbl with
  | nil =>
    intro st0 clow0 st1 clow1 h0
    injection h0 with h'
    injection h' with h1 h2
    exact ⟨[], by rw [← h1, List.append_nil], fun g hg => absurd hg (List.not_mem_nil g)⟩
  | cons pv rest ih =>
    intro st0 clow0 st1 clow1 h0
    rw [List.foldl_cons] at h0
    cases hx : pv.2.foldl (propValueStep pv.1) (.ok (st0, clow0)) with
    | error e =>
      rw [hx, foldl_propTable_error] at h0
      exact absurd h0 (by simp)
    | ok acc1 =>
      obtain ⟨stm, clowm⟩ := acc1
      rw [hx] at h0
      obtain ⟨new1, h1, hp1⟩ := foldl_propValueStep_shape pv.1 pv.2 st0 clow0 stm clowm hx
      obtain ⟨new2, h2, hp2⟩ := ih stm clowm st1 clow1 h0
      refine ⟨new1 ++ new2, ?_, ?_⟩
      · rw [h2, h1, List.append_assoc]
      · intro g hg
        rcases List.mem_append.mp hg with hg1 | hg2
        · exact hp1 g hg1
        · exact hp2 g hg2

theorem weakStep_gated (st : PassState) (h : hasEpisodeNumber st.result = true) :
    weakStep st = st := by
  rw [weakStep, if_pos h]

theorem runRules_shape (D : Detectors) (res : List Guess) (eg : Str)
    (st : PassState) (hok : runRules D res eg = .ok st)
    (hep : hasEpisodeNumber res = true) :
    ∃ new, st.result = res ++ new ∧ ∀ g ∈ new, notWeakEpisodeGuess g := by
  rw [runRules] at hok
  simp only [Bind.bind, Except.bind] at hok
  set st0 : PassState := ⟨res, ' ' :: eg ++ [' '], []⟩ with hst0
  obtain ⟨n1, e1, p1⟩ := dateStep_shape D st0
  obtain ⟨n2, e2, p2⟩ := foldl_applyRexpRule_shape episodes_rexps (dateStep D st0)
  obtain ⟨n3, e3, p3⟩ :=
    groupNamesStep_shape (episodes_rexps.foldl applyRexpRule (dateStep D st0))
  cases hp : propertiesStep
      (groupNamesStep (episodes_rexps.foldl applyRexpRule (dateStep D st0))) with
  | error e => rw [hp] at hok; exact absurd hok (by simp)
  | ok st4 =>
    rw [hp] at hok
    simp only at hok
    obtain ⟨n4, e4, p4⟩ := propertiesStep_shape _ st4 hp
    have hres0 : st0.result = res := rfl
    have hres4 : st4.result = res ++ (n1 ++ (n2 ++ (n3 ++ n4))) := by
      rw [e4, e3, e2, e1, hres0]
      simp [List.append_assoc]
    have hep4 : hasEpisodeNumber st4.result = true := by
      rw [hres4]; exact hasEpisodeNumber_append_left _ _ hep
    rw [weakStep_gated st4 hep4] at hok
    obtain ⟨n5, e5, p5⟩ :=
      languageLoop_result_append D (st4.current.length + 1) st4
    simp only [pure, Except.pure] at hok
    injection hok with hok'
    subst hok'
    refine ⟨n1 ++ (n2 ++ (n3 ++ (n4 ++ n5))), ?_, ?_⟩
    · rw [e5, hres4]
      simp [List.append_assoc]
    · intro g hg
      rw [notWeakEpisodeGuess]
      rintro ⟨hc, ha⟩
      have hmemk := key_mem_of_any g episodeNumberKey ha
      rcases List.mem_append.mp hg with h1 | hg
      · have := p1 g h1
        rw [this] at hmemk
        exact absurd hmemk (by decide)
      rcases List.mem_append.mp hg with h2 | hg
      · obtain ⟨r, hr, hconf, -⟩ := p2 g h2
        simp only [episodes_rexps, List.mem_cons, List.not_mem_nil, or_false] at hr
        rcases hr with rfl | rfl | rfl | rfl | rfl | rfl <;>
          (rw [hc] at hconf; exact absurd hconf (by norm_num))
      rcases List.mem_append.mp hg with h3 | hg
      · have := p3 g h3
        rw [hc] at this
        exact absurd this (by norm_num)
      rcases List.mem_append.mp hg with h4 | h5
      · have := p4 g h4
        rw [hc] at this
        exact absurd this (by norm_num)
      · rcases p5 g h5 with hk | hk <;>
          (rw [hk] at hmemk; exact absurd hmemk (by decide))

theorem processGroup_shape (D : Detectors) (res : List Guess) (eg : Str)
    (st : PassState) (pairs : List (Str × Str))
    (hok : processGroup D res eg = .ok (st, pairs))
    (hep : hasEpisodeNumber res = true) :
    ∃ new, st.result = res ++ new ∧ ∀ g ∈ new, notWeakEpisodeGuess g := by
  rw [processGroup] at hok
  cases hrr : runRules D res eg with
  | error e =>
    rw [hrr] at hok
    simp only [Bind.bind, Except.bind] at hok
    exact absurd hok (by simp)
  | ok st0 =>
    rw [hrr] at hok
    simp only [Bind.bind, Except.bind] at hok
    obtain ⟨new, e0, p0⟩ := runRules_shape D res eg st0 hrr hep
    cases hh : st0.current.head? with
    | none => rw [hh] at hok; exact absurd hok (by simp)
    | some hch =>
      rw [hh] at hok
      cases ht : st0.current.getLast? with
      | none => rw [ht] at hok; exact absurd hok (by simp)
      | some tch =>
        rw [ht] at hok
        simp only at hok
        by_cases hcond : hch = ' ' ∧ tch = ' '
        · rw [if_pos hcond] at hok
          simp only [pure, Except.pure] at hok
          injection hok with hok'
          have hres : st.result = st0.result := by
            have := congrArg Prod.fst hok'
            simp at this
            rw [← this]
          exact ⟨new, by rw [hres, e0], p0⟩
        · rw [if_neg hcond] at hok
          exact absurd hok (by simp)

set_option maxHeartbeats 2000000

theorem processGroups_shape (D : Detectors) (groups : List Str) :
    ∀ (acc : List Guess × List (List (Str × Str)))
      (out : List Guess × List (List (Str × Str))),
      groups.foldlM (fun acc eg => do
        let (st, pairs) ← processGroup D acc.1 eg
        pure (st.result, acc.2 ++ [pairs])) acc = .ok out →
      hasEpisodeNumber acc.1 = true →
      ∃ new, out.1 = acc.1 ++ new ∧ ∀ g ∈ new, notWeakEpisodeGuess g := by
  induction groups with
  | nil =>
    intro acc out h hep
    simp only [List.foldlM_nil, pure, Except.pure] at h
    injection h with h'
    subst h'
    exact ⟨[], by rw [List.append_nil], fun g hg => absurd hg (List.not_mem_nil g)⟩
  | cons eg rest ih =>
    intro acc out h hep
    rw [List.foldlM_cons] at h
    cases hpg : processGroup D acc.1 eg with
    | error e =>
      rw [hpg] at h
      have h' : (Except.error e :
          Except Unit (List Guess × List (List (Str × Str)))) = Except.ok out := h
      exact absurd h' (by simp)
    | ok r =>
      obtain ⟨st1, pairs1⟩ := r
      rw [hpg] at h
      have h' : rest.foldlM (fun acc eg => do
          let (st, pairs) ← processGroup D acc.1 eg
          pure (st.result, acc.2 ++ [pairs])) (st1.result, acc.2 ++ [pairs1]) =
          Except.ok out := h
      clear h
      obtain ⟨new1, e1, p1⟩ := processGroup_shape D acc.1 eg st1 pairs1 hpg hep
      have hep1 : hasEpisodeNumber (st1.result, acc.2 ++ [pairs1]).1 = true := by
        simp only
        rw [e1]
        exact hasEpisodeNumber_append_left _ _ hep
      obtain ⟨new2, e2, p2⟩ := ih (st1.result, acc.2 ++ [pairs1]) out h' hep1
      refine ⟨new1 ++ new2, ?_, ?_⟩
      · rw [e2]
        simp only
        rw [e1, List.append_assoc]
      · intro g hg
        rcases List.mem_append.mp hg with hg1 | hg2
        · exact p1 g hg1
        · exact p2 g hg2

/-- Claim C4: the weak episode-number fallback (bare 1-3 digit number
between separators, confidence 0.3) is gated on the WHOLE filename's
accumulated evidence: whenever `episodeNumber` evidence already exists
anywhere in the accumulated result — including evidence produced in a
different path segment or group — processing any further explicit groups
never adds a weak episode guess (a guess carrying `episodeNumber` at
confidence 0.3). -/
theorem c4_weak_fallback_gated (D : Detectors) (result0 : List Guess)
    (groups : List Str) (out : List Guess × List (List (Str × Str)))
    (hep : hasEpisodeNumber result0 = true)
    (hok : processGroups D result0 groups = .ok out) :
    ∀ g ∈ out.1, g ∈ result0 ∨ notWeakEpisodeGuess g := by
  rw [processGroups] at hok
  obtain ⟨new, he, hp⟩ := processGroups_shape D groups (result0, []) out hok hep
  intro g hg
  rw [he] at hg
  rcases List.mem_append.mp hg with h1 | h2
  · exact Or.inl h1
  · exact Or.inr (hp g h2)

/-- Witness for C4: with `episodeNumber` evidence already present, the
group `"abc"` is processed without adding any weak episode guess. -/
theorem c4_weak_fallback_gated_witness :
    hasEpisodeNumber [epSeed] = true ∧
    (epSeed ∈ [epSeed] ∨ notWeakEpisodeGuess epSeed) :=
  ⟨by decide,
   c4_weak_fallback_gated noneDetectors [epSeed] [str "abc"]
     ([epSeed], [[(str "abc", str "abc")]]) (by decide) rfl epSeed
     (by decide)⟩

theorem scanGroups_bounds (o c : Char) :
    ∀ (s : Str) (i : Nat) (depth : List Nat) (acc : List (Nat × Nat)),
      (∀ x ∈ depth, x < i) → (∀ p ∈ acc, p.1 < p.2 ∧ p.2 ≤ i) →
      ∀ p ∈ (scanGroups o c s i depth acc).2, p.1 < p.2 ∧ p.2 ≤ i + s.length := by
  intro s
  induction s with
  | nil =>
    intro i depth acc hd ha p hp
    have := ha p hp
    exact ⟨this.1, by omega⟩
  | cons ch rest ih =>
    intro i depth acc hd ha
    have harith : ∀ p : Nat × Nat, p.1 < p.2 ∧ p.2 ≤ i + 1 + rest.length →
        p.1 < p.2 ∧ p.2 ≤ i + (ch :: rest).length := by
      intro p hp
      simp only [List.length_cons]
      exact ⟨hp.1, by omega⟩
    by_cases ho : ch = o
    · intro p hp
      simp only [scanGroups, if_pos ho] at hp
      refine harith p (ih (i + 1) (i :: depth) acc ?_ ?_ p hp)
      · intro x hx
        rcases List.mem_cons.mp hx with rfl | hx'
        · omega
        · have := hd x hx'; omega
      · intro q hq
        have := ha q hq
        exact ⟨this.1, by omega⟩
    · by_cases hc : ch = c
      · cases depth with
        | nil =>
          intro p hp
          simp only [scanGroups, if_neg ho, if_pos hc] at hp
          refine harith p (ih (i + 1) [] acc ?_ ?_ p hp)
          · intro x hx; exact absurd hx (List.not_mem_nil x)
          · intro q hq
            have := ha q hq
            exact ⟨this.1, by omega⟩
        | cons d ds =>
          by_cases hds : ds = []
          · subst hds
            intro p hp
            simp only [scanGroups, if_neg ho, if_pos hc, if_pos rfl, if_true, eq_self_iff_true] at hp
            refine harith p (ih (i + 1) [] (acc ++ [(d, i + 1)]) ?_ ?_ p hp)
            · intro x hx; exact absurd hx (List.not_mem_nil x)
            · intro q hq
              rcases List.mem_append.mp hq with hq1 | hq2
              · have := ha q hq1
                exact ⟨this.1, by omega⟩
              · rcases List.mem_cons.mp hq2 with rfl | hq3
                · have := hd d (List.mem_cons_self d [])
                  exact ⟨by omega, by omega⟩
                · exact absurd hq3 (List.not_mem_nil q)
          · intro p hp
            simp only [scanGroups, if_neg ho, if_pos hc, if_neg hds] at hp
            refine harith p (ih (i + 1) ds acc ?_ ?_ p hp)
            · intro x hx
              have := hd x (List.mem_cons_of_mem d hx)
              omega
            · intro q hq
              have := ha q hq
              exact ⟨this.1, by omega⟩
      · intro p hp
        simp only [scanGroups, if_neg ho, if_neg hc] at hp
        refine harith p (ih (i + 1) depth acc ?_ ?_ p hp)
        · intro x hx
          have := hd x hx
          omega
        · intro q hq
          have := ha q hq
          exact ⟨this.1, by omega⟩

theorem find_first_level_groups_span_bounds (s : Str) (o c : Char) :
    ∀ p ∈ find_first_level_groups_span s o c, p.1 < p.2 ∧ p.2 ≤ s.length := by
  intro p hp
  have := scanGroups_bounds o c s 0 [] []
    (fun x hx => absurd hx (List.not_mem_nil x))
    (fun q hq => absurd hq (List.not_mem_nil q)) p hp
  simpa using this

theorem mem_foldl_pairs (groups : List (Nat × Nat)) :
    ∀ (init : List Nat) (x : Nat),
      x ∈ groups.foldl (fun acc p => acc ++ [p.1, p.2]) init ↔
        x ∈ init ∨ ∃ p ∈ groups, x = p.1 ∨ x = p.2 := by
  induction groups with
  | nil => intro init x; simp
  | cons q rest ih =>
    intro init x
    rw [List.foldl_cons, ih]
    simp only [List.mem_append, List.mem_cons, List.not_mem_nil, or_false]
    constructor
    · rintro (h | ⟨p, hp, h⟩)
      · rcases h with h | h | h
        · exact Or.inl h
        · exact Or.inr ⟨q, Or.inl rfl, Or.inl h⟩
        · exact Or.inr ⟨q, Or.inl rfl, Or.inr h⟩
      · exact Or.inr ⟨p, Or.inr hp, h⟩
    · rintro (h | ⟨p, (rfl | hp), h⟩)
      · exact Or.inl (Or.inl h)
      · exact Or.inl (Or.inr h)
      · exact Or.inr ⟨p, hp, h⟩

theorem pySlice_append (l : Str) (a b c : Nat) (hab : a ≤ b) (hbc : b ≤ c) :
    pySlice l a b ++ pySlice l b c = pySlice l a c := by
  have h1 : c - a = (b - a) + (c - b) := by omega
  have h2 : a + (b - a) = b := by omega
  simp only [pySlice]
  rw [h1, List.take_add, List.drop_drop, h2]

theorem chain_le_getLastD (b : Nat) (bs : List Nat)
    (h : List.Chain' (· ≤ ·) (b :: bs)) : b ≤ (b :: bs).getLastD 0 := by
  induction bs generalizing b with
  | nil => simp
  | cons b2 rest ih =>
    rw [List.chain'_cons] at h
    have h2 := ih b2 h.2
    calc b ≤ b2 := h.1
      _ ≤ (b2 :: rest).getLastD 0 := h2
      _ = (b :: b2 :: rest).getLastD 0 := by simp [List.getLastD_eq_getLast?]

theorem slices_flatten (l : Str) :
    ∀ (bs : List Nat), List.Chain' (· ≤ ·) bs →
      ((bs.zip bs.tail).map (fun p => pySlice l p.1 p.2)).flatten =
        pySlice l (bs.headD 0) (bs.getLastD 0) := by
  intro bs
  induction bs with
  | nil => intro _; simp [pySlice]
  | cons b1 rest ih =>
    intro hch
    cases rest with
    | nil => simp [pySlice]
    | cons b2 rest2 =>
      rw [List.chain'_cons] at hch
      have ihr := ih hch.2
      simp only [List.tail_cons, List.zip_cons_cons, List.map_cons,
        List.flatten_cons]
      rw [show ((b2 :: rest2).zip rest2) = ((b2 :: rest2).zip (b2 :: rest2).tail) from rfl]
      rw [ihr]
      simp only [List.headD_cons]
      have hlast : (b1 :: b2 :: rest2).getLastD 0 = (b2 :: rest2).getLastD 0 := by
        simp [List.getLastD_eq_getLast?]
      rw [hlast]
      exact pySlice_append l b1 b2 _ hch.1 (chain_le_getLastD b2 rest2 hch.2)

theorem flatten_filter_nonempty (xs : List Str) :
    (xs.filter (fun g => !g.isEmpty)).flatten = xs.flatten := by
  induction xs with
  | nil => rfl
  | cons x rest ih =>
    cases x with
    | nil => simpa using ih
    | cons a as => simpa using ih

theorem split_on_groups_flatten (l : Str) (groups : List (Nat × Nat))
    (hb : ∀ p ∈ groups, p.1 ≤ l.length ∧ p.2 ≤ l.length) :
    (split_on_groups l groups).flatten = l := by
  by_cases hg : groups = []
  · subst hg; simp [split_on_groups]
  · rw [split_on_groups, if_neg hg]
    set flat := groups.foldl (fun acc p => acc ++ [p.1, p.2]) [] with hflat
    set bs0 := pyBoundaries groups with hbs0
    have hmem0 : ∀ x ∈ bs0, x ≤ l.length := by
      intro x hx
      rw [hbs0, pyBoundaries] at hx
      rw [List.mem_insertionSort] at hx
      rw [List.mem_dedup] at hx
      rw [mem_foldl_pairs] at hx
      rcases hx with hx | ⟨p, hp, hx⟩
      · exact absurd hx (List.not_mem_nil x)
      · rcases hx with rfl | rfl
        · exact (hb p hp).1
        · exact (hb p hp).2
    have hch0 : List.Chain' (· ≤ ·) bs0 := by
      rw [List.chain'_iff_pairwise]
      exact List.sorted_insertionSort _ _
    set bs1 := if bs0.head? ≠ some 0 then 0 :: bs0 else bs0 with hbs1
    have hch1 : List.Chain' (· ≤ ·) bs1 := by
      rw [hbs1]
      by_cases h0 : bs0.head? ≠ some 0
      · rw [if_pos h0]
        rw [List.chain'_cons']
        exact ⟨fun y _ => Nat.zero_le y, hch0⟩
      · rw [if_neg h0]; exact hch0
    have hmem1 : ∀ x ∈ bs1, x ≤ l.length := by
      intro x hx
      rw [hbs1] at hx
      by_cases h0 : bs0.head? ≠ some 0
      · rw [if_pos h0] at hx
        rcases List.mem_cons.mp hx with rfl | hx'
        · exact Nat.zero_le _
        · exact hmem0 x hx'
      · rw [if_neg h0] at hx; exact hmem0 x hx
    have hne1 : bs1 ≠ [] := by
      rw [hbs1]
      by_cases h0 : bs0.head? ≠ some 0
      · rw [if_pos h0]; exact List.cons_ne_nil 0 bs0
      · rw [if_neg h0]
        push_neg at h0
        intro hnil
        rw [hnil] at h0
        exact absurd h0 (by simp)
    have hhead1 : bs1.head? = some 0 := by
      rw [hbs1]
      by_cases h0 : bs0.head? ≠ some 0
      · rw [if_pos h0]; rfl
      · rw [if_neg h0]
        push_neg at h0
        exact h0
    set bs2 := if bs1.getLast? ≠ some l.length then bs1 ++ [l.length] else bs1
      with hbs2
    have hch2 : List.Chain' (· ≤ ·) bs2 := by
      rw [hbs2]
      by_cases hL : bs1.getLast? ≠ some l.length
      · rw [if_pos hL]
        rw [List.chain'_append]
        refine ⟨hch1, List.chain'_singleton _, ?_⟩
        intro x hx y hy
        simp only [List.head?_cons, Option.mem_def, Option.some.injEq] at hy
        subst hy
        have hxmem : x ∈ bs1 := by
          rcases List.mem_getLast?_eq_getLast hx with ⟨hne, hxl⟩
          rw [hxl]
          exact List.getLast_mem hne
        exact hmem1 x hxmem
      · rw [if_neg hL]; exact hch1
    have hhead2 : bs2.head? = some 0 := by
      rw [hbs2]
      by_cases hL : bs1.getLast? ≠ some l.length
      · rw [if_pos hL, List.head?_append_of_ne_nil _ hne1]
        exact hhead1
      · rw [if_neg hL]; exact hhead1
    have hlast2 : bs2.getLast? = some l.length := by
      rw [hbs2]
      by_cases hL : bs1.getLast? ≠ some l.length
      · rw [if_pos hL, List.getLast?_append_of_ne_nil _ (List.cons_ne_nil _ _)]
        rfl
      · rw [if_neg hL]
        push_neg at hL
        exact hL
    rw [flatten_filter_nonempty, slices_flatten l bs2 hch2]
    have hh : bs2.headD 0 = 0 := by
      rw [List.headD_eq_head?, hhead2]; rfl
    have hl : bs2.getLastD 0 = l.length := by
      rw [List.getLastD_eq_getLast?, hlast2]; rfl
    rw [hh, hl]
    simp [pySlice]

/-- Claim C6: splitting any string on the spans reported by the bracket
tokenizer (without blanking) partitions the string into consecutive
fragments whose in-order concatenation reconstructs the original string
exactly (the alternating inside/outside fragments, empty pieces dropped,
cover the whole string in order). -/
theorem c6_split_reconstructs (l : Str) (opening closing : Char) :
    (split_on_groups l (find_first_level_groups_span l opening closing)).flatten
      = l := by
  apply split_on_groups_flatten
  intro p hp
  have := find_first_level_groups_span_bounds l opening closing p hp
  exact ⟨by omega, this.2⟩
